import Mathlib

/-!
Shallow embedding of the BPE trainer/tokenizer simulator found in
`src/components/BPEPlayground.tsx` (the `computeBPE` function, the
`TokenizerModel` records and the preprocessing it performs).

Symbols are Lean `String`s; JS strings are modelled at the level of their
character lists (`String.data`).  JS `Map` objects (which preserve
insertion order and key by string equality) are modelled as insertion
ordered association lists.  The floating point fields of the source
(`compressionRatio`, `averageTokenLength`, `vocabularyEfficiency`) are
real-valued projections of the recorded lengths and are not embedded;
every claim under verification is about the integer/string fields.
Whitespace is modelled by the ASCII portion of the JS `\s` class, which
covers every input exercised here.
-/

/-- Model record: the behaviour-relevant fields of `TokenizerModel`
(`name`, `vocabSize`, `specialTokens`); the source dispatches on `name`. -/
structure TokenizerModel where
  name : String
  vocabSize : Nat
  specialTokens : List String
deriving DecidableEq, Repr, Inhabited

def gpt2Model : TokenizerModel :=
  ⟨"GPT-2", 50257, ["<|endoftext|>"]⟩

def gpt4Model : TokenizerModel :=
  ⟨"GPT-4", 100256, ["<|endoftext|>", "<|fim_prefix|>", "<|fim_middle|>", "<|fim_suffix|>"]⟩

def bertModel : TokenizerModel :=
  ⟨"BERT", 30522, ["[CLS]", "[SEP]", "[PAD]", "[UNK]", "[MASK]"]⟩

def t5Model : TokenizerModel :=
  ⟨"T5/SentencePiece", 32128, ["<pad>", "</s>", "<unk>", "<extra_id_0>"]⟩

def llamaModel : TokenizerModel :=
  ⟨"LLaMA", 32000, ["<s>", "</s>", "<unk>"]⟩

def customModel : TokenizerModel :=
  ⟨"Custom", 1000, ["</w>"]⟩

/-- ASCII portion of the JS regex class `\s`. -/
def isSpace (c : Char) : Bool :=
  c = ' ' || c = '\t' || c = '\n' || c = '\r' || c = '\x0b' || c = '\x0c'

/-- JS `\w` class: ASCII alphanumerics and underscore. -/
def isWordChar (c : Char) : Bool :=
  c.isAlphanum || c = '_'

/-- One-character string. -/
def charStr (c : Char) : String := ⟨[c]⟩

/-- `s.includes(pat)` on JS strings: substring test. -/
def strContains (s pat : String) : Bool :=
  s.data.tails.any fun t => pat.data.isPrefixOf t

/-- `text.replace(/\s+/g, rep)`: every maximal whitespace run becomes
one copy of `rep`.  The boolean flag records whether the previous
character was part of the current run. -/
def replaceRunsAux (rep : List Char) : Bool → List Char → List Char
  | _, [] => []
  | inRun, c :: rest =>
    if isSpace c then (if inRun then [] else rep) ++ replaceRunsAux rep true rest
    else c :: replaceRunsAux rep false rest

/-- `text.replace(/\s+/g, rep)` on whole strings. -/
def replaceRuns (rep : List Char) (l : List Char) : List Char :=
  replaceRunsAux rep false l

/-- JS `String.prototype.trim`. -/
def trimSpaces (l : List Char) : List Char :=
  ((l.dropWhile isSpace).reverse.dropWhile isSpace).reverse

/-- `text.replace(/^▁/, "")`: strip at most one leading separator. -/
def stripLeadingSep : List Char → List Char
  | [] => []
  | c :: rest => if c = '▁' then rest else c :: rest

/-- Replace every character outside `\w` and `\s` by a space
(the BERT branch `replace(/[^\w\s]/g, " ")`). -/
def bertClean (c : Char) : Char :=
  if isWordChar c || isSpace c then c else ' '

/-- The model-dependent preprocessing of `computeBPE` (lines 203-219 of
the source): GPT collapses whitespace and trims, BERT lower-cases,
strips punctuation and collapses whitespace, T5/LLaMA replace whitespace
runs by the visible separator `▁` and strip one leading separator,
anything else is left untouched. -/
def preprocess (model : TokenizerModel) (text : String) : String :=
  if strContains model.name "GPT" then
    ⟨trimSpaces (replaceRuns [' '] text.data)⟩
  else if model.name = "BERT" then
    ⟨trimSpaces (replaceRuns [' '] ((text.data.map Char.toLower).map bertClean))⟩
  else if strContains model.name "T5" || strContains model.name "LLaMA" then
    ⟨stripLeadingSep (replaceRuns ['▁'] text.data)⟩
  else text

/-- `processedText.split(/\s+/).filter(w => w.length > 0)`: the maximal
runs of non-whitespace characters, in order. -/
def wordsAux (cur : List Char) : List Char → List (List Char)
  | [] => if cur.isEmpty then [] else [cur.reverse]
  | c :: rest =>
    if isSpace c then
      (if cur.isEmpty then [] else [cur.reverse]) ++ wordsAux [] rest
    else wordsAux (c :: cur) rest

def splitWords (s : String) : List String :=
  (wordsAux [] s.data).map fun l => (⟨l⟩ : String)

def wordsOf (model : TokenizerModel) (text : String) : List String :=
  splitWords (preprocess model text)

/-- Per-word tokenization (lines 225-241): BERT marks every character
after the first with `##`, a name containing `T5` explodes into bare
characters, every other variant appends `</w>` after the characters. -/
def wordTokens (model : TokenizerModel) (word : String) : List String :=
  if model.name = "BERT" then
    match word.data with
    | [] => []
    | c :: rest => charStr c :: rest.map fun d => "##" ++ charStr d
  else if strContains model.name "T5" then
    word.data.map charStr
  else
    word.data.map charStr ++ ["</w>"]

def tokensOf (model : TokenizerModel) (text : String) : List String :=
  (wordsOf model text).flatMap (wordTokens model)

/-- First-seen-order deduplication (`[...new Set(xs)]`). -/
def dedupAux (seen : List String) : List String → List String
  | [] => []
  | x :: xs =>
    if x ∈ seen then dedupAux seen xs
    else x :: dedupAux (x :: seen) xs

def dedup (l : List String) : List String := dedupAux [] l

/-- Tokens kept for the seed vocabulary: the source filters out any token
whose text contains `</w>` or `##` (lines 244-248). -/
def isPlainTok (t : String) : Bool :=
  !(strContains t "</w>") && !(strContains t "##")

/-- Seed vocabulary: deduplicated plain tokens followed by the variant's
special tokens (line 249). -/
def seedVocab (model : TokenizerModel) (tokens : List String) : List String :=
  dedup (tokens.filter isPlainTok) ++ model.specialTokens

/-- Map key for an adjacent pair: the source joins with the separator
`"|||"` (line 282). -/
def pairKey (a b : String) : String := a ++ "|||" ++ b

/-- The keys of all adjacent index pairs `(i, i+1)`, in scan order. -/
def adjKeys : List String → List String
  | [] => []
  | x :: rest =>
    match rest with
    | [] => []
    | y :: _ => pairKey x y :: adjKeys rest

/-- `Map.set(k, (Map.get(k) ?? 0) + 1)`: bump the count of `k`, keeping
the position of an existing key and appending a fresh key at the end. -/
def bump (k : String) : List (String × Nat) → List (String × Nat)
  | [] => [(k, 1)]
  | (k0, n) :: rest =>
    if k0 = k then (k0, n + 1) :: rest else (k0, n) :: bump k rest

/-- The pair-frequency map of one count pass (lines 279-284). -/
def countPairs (tokens : List String) : List (String × Nat) :=
  (adjKeys tokens).foldl (fun m k => bump k m) []

/-- First value stored under a key (JS `Map.get`), defaulting to 0. -/
def getCount (m : List (String × Nat)) (k : String) : Nat :=
  match m with
  | [] => 0
  | (k0, n) :: rest => if k0 = k then n else getCount rest k

/-- Number of occurrences of the key `k` in a list of keys. -/
def keyCount (k : String) : List String → Nat
  | [] => 0
  | x :: xs => (if x = k then 1 else 0) + keyCount k xs

/-- `key.split("|||")` (greedy leftmost, as in JS), specialised to the
three-bar separator.  `pending` counts bars seen but not yet resolved
(0, 1 or 2); `acc` holds the current part reversed. -/
def splitBarsSt (pending : Nat) (acc : List Char) : List Char → List (List Char)
  | [] => [(List.replicate pending '|' ++ acc).reverse]
  | c :: rest =>
    if c = '|' then
      if pending = 2 then acc.reverse :: splitBarsSt 0 [] rest
      else splitBarsSt (pending + 1) acc rest
    else splitBarsSt 0 (c :: (List.replicate pending '|' ++ acc)) rest

def keyParts (k : String) : List String :=
  (splitBarsSt 0 [] k.data).map fun l => (⟨l⟩ : String)

/-- `const [first, second] = pair.split("|||")`, first component. -/
def keyFst (k : String) : String := (keyParts k).getD 0 ""

/-- `const [first, second] = pair.split("|||")`, second component. -/
def keySnd (k : String) : String := (keyParts k).getD 1 ""

/-- One step of the selection scan (lines 292-306): a map entry replaces
the current best when its frequency is strictly larger, or equal while
the entry's key string is shorter than the concatenation of the current
best's split parts. -/
def selStep (acc : Option (String × String) × Nat) (e : String × Nat) :
    Option (String × String) × Nat :=
  if e.2 > acc.2 ∨
      (e.2 = acc.2 ∧
        e.1.length <
          (match acc.1 with
           | some p => p.1 ++ p.2
           | none => "").length) then
    (some (keyFst e.1, keySnd e.1), e.2)
  else acc

/-- Scan the frequency map in insertion order for the most frequent pair
with the source's tie handling. -/
def selectPair (counts : List (String × Nat)) :
    Option (String × String) × Nat :=
  counts.foldl selStep (none, 0)

/-- Merge result (lines 311-318): BERT strips a `##` marker carried by
the right-hand symbol, every other variant concatenates. -/
def makeNewToken (model : TokenizerModel) (first second : String) : String :=
  if model.name = "BERT" ∧ "##".data.isPrefixOf second.data then
    first ++ (⟨second.data.drop 2⟩ : String)
  else if strContains model.name "T5" || strContains model.name "LLaMA" then
    first ++ second
  else
    first ++ second

/-- The replacement scan (lines 320-333): left-to-right, replacing every
non-overlapping adjacent occurrence of the pair and skipping the
consumed second element.  `pend` is the token waiting for its pair
decision (the element at index `i`). -/
def mergeScan (a b newToken : String) (pend : Option String) :
    List String → List String
  | [] =>
    match pend with
    | some x => [x]
    | none => []
  | y :: rest =>
    match pend with
    | none => mergeScan a b newToken (some y) rest
    | some x =>
      if x = a ∧ y = b then newToken :: mergeScan a b newToken none rest
      else x :: mergeScan a b newToken (some y) rest

def mergeTokens (a b newToken : String) (l : List String) : List String :=
  mergeScan a b newToken none l

/-- Adjacent occurrences of the exact pair `(a, b)`, counting overlapping
adjacencies (the quantity the per-iteration count pass accumulates for a
key without separator collisions). -/
def adjCount (a b : String) : List String → Nat
  | [] => 0
  | x :: rest =>
    match rest with
    | [] => 0
    | y :: _ => (if x = a ∧ y = b then 1 else 0) + adjCount a b rest

/-- One recorded snapshot (`BPEStep`, minus the real-valued
`compressionRatio`, whose inputs `text.length` and
`mergedTokens.length` are both recorded). -/
structure BPEStep where
  iteration : Nat
  mostFrequentPair : Option (String × String)
  frequency : Nat
  vocabulary : List String
  mergedTokens : List String
  mergingRules : List ((String × String) × String)
  pairFrequencies : List (String × Nat)
deriving DecidableEq, Repr, Inhabited

/-- The result of `computeBPE` (`BPEResult`, minus the real-valued
statistics; `totalMerges` is `steps.length - 1` as at line 366). -/
structure BPEResult where
  steps : List BPEStep
  finalTokens : List String
  finalVocabulary : List String
  totalMerges : Nat
deriving DecidableEq, Repr

/-- The merge loop (lines 273-351).  `fuel` is the remaining number of
allowed iterations (`maxIterations` at entry), `iter` the 1-based
iteration counter; the loop stops when fuel runs out, the vocabulary has
reached `maxV`, no pairs exist, or the best frequency is below 2. -/
def bpeLoop (model : TokenizerModel) (maxV : Nat) :
    Nat → Nat → List String → List String →
    List ((String × String) × String) → List BPEStep → List BPEStep
  | 0, _, _, _, _, steps => steps
  | fuel + 1, iter, tokens, vocab, rules, steps =>
    if vocab.length < maxV then
      let counts := countPairs tokens
      if counts.isEmpty then steps
      else
        match selectPair counts with
        | (none, _) => steps
        | (some (first, second), maxFreq) =>
          if maxFreq < 2 then steps
          else
            let newToken := makeNewToken model first second
            let newTokens := mergeTokens first second newToken tokens
            let newVocab := vocab ++ [newToken]
            let newRules := rules ++ [((first, second), newToken)]
            bpeLoop model maxV fuel (iter + 1) newTokens newVocab newRules
              (steps ++ [⟨iter, some (first, second), maxFreq, newVocab, newTokens, newRules, counts⟩])
    else steps

/-- The embedded `computeBPE` (lines 198-373).  `maxIterations` is
`min(maxVocabSize - vocabulary.length, 100)` computed over the integers
and clamped to zero iterations when negative, exactly as the JS
`for`-loop behaves. -/
def computeBPE (text : String) (maxVocabSize : Nat) (model : TokenizerModel) :
    BPEResult :=
  let tokens := tokensOf model text
  let vocabulary := seedVocab model tokens
  let step0 : BPEStep := ⟨0, none, 0, vocabulary, tokens, [], []⟩
  let maxIterations : Nat :=
    (min ((maxVocabSize : Int) - (vocabulary.length : Int)) 100).toNat
  let steps := bpeLoop model maxVocabSize maxIterations 1 tokens vocabulary [] [step0]
  ⟨steps, (steps.getLastD step0).mergedTokens, (steps.getLastD step0).vocabulary,
    steps.length - 1⟩

/-- Relation between consecutive trajectory steps used for the frequency
law: when no symbol of the earlier snapshot contains a `|` character,
the later step's recorded frequency is the overlap-inclusive adjacent
count of its chosen pair in the earlier snapshot. -/
def stepRel (st st2 : BPEStep) : Prop :=
  (∀ t ∈ st.mergedTokens, '|' ∉ t.data) →
  ∀ a b, st2.mostFrequentPair = some (a, b) →
    st2.frequency = adjCount a b st.mergedTokens

/-- Sequence/vocabulary invariant: every symbol of the snapshot sequence
is in the snapshot vocabulary, except possibly unmerged preprocessor
symbols whose text contains a `</w>` or `##` marker (those are excluded
from the seed vocabulary unless listed among the special tokens). -/
def TokInv (tokens vocab : List String) : Prop :=
  ∀ t ∈ tokens,
    t ∈ vocab ∨ strContains t "</w>" = true ∨ strContains t "##" = true

/-! ### Generic facts about the merge loop -/

theorem bpeLoop_nil_tokens (model : TokenizerModel) (maxV fuel iter : Nat)
    (vocab : List String) (rules : List ((String × String) × String))
    (steps : List BPEStep) :
    bpeLoop model maxV fuel iter [] vocab rules steps = steps := by
  cases fuel with
  | zero => rfl
  | succ n =>
    simp only [bpeLoop]
    split <;> rfl

theorem bpeLoop_length_le (model : TokenizerModel) (maxV : Nat) :
    ∀ fuel iter tokens vocab rules steps,
      (bpeLoop model maxV fuel iter tokens vocab rules steps).length ≤
        steps.length + fuel := by
  intro fuel
  induction fuel with
  | zero =>
    intro iter tokens vocab rules steps
    simp [bpeLoop]
  | succ n ih =>
    intro iter tokens vocab rules steps
    simp only [bpeLoop]
    split
    · split
      · omega
      · split
        · omega
        · split
          · omega
          · refine le_trans (ih _ _ _ _ _) ?_
            simp only [List.length_append, List.length_singleton]
            omega
    · omega

theorem bpeLoop_mem_frequency (model : TokenizerModel) (maxV : Nat) :
    ∀ fuel iter tokens vocab rules steps st,
      st ∈ bpeLoop model maxV fuel iter tokens vocab rules steps →
      st ∈ steps ∨ 2 ≤ st.frequency := by
  intro fuel
  induction fuel with
  | zero =>
    intro iter tokens vocab rules steps st h
    exact Or.inl (by simpa [bpeLoop] using h)
  | succ n ih =>
    intro iter tokens vocab rules steps st h
    simp only [bpeLoop] at h
    split at h
    · split at h
      · exact Or.inl h
      · split at h
        · exact Or.inl h
        · rename_i heq
          split at h
          · exact Or.inl h
          · rename_i hge
            rcases ih _ _ _ _ _ _ h with hmem | hfreq
            · rcases List.mem_append.mp hmem with h1 | h2
              · exact Or.inl h1
              · right
                have hst := List.mem_singleton.mp h2
                subst hst
                exact Nat.not_lt.mp hge
            · exact Or.inr hfreq
    · exact Or.inl h

/-! ### C1: behaviour on empty / whitespace-only input -/

/-- C1 counterexample: on the empty input, `computeBPE` does not fail
and does return a Step 0 — the trajectory has exactly one step, with
iteration number 0, contradicting the claim that no Step (not even
Step 0) is returned. -/
theorem c1_counterexample :
    (computeBPE "" 1000 customModel).steps.length = 1 ∧
      ((computeBPE "" 1000 customModel).steps.getD 0 default).iteration = 0 :=
  ⟨rfl, rfl⟩

/-- C1 (amended): when splitting yields zero words (empty or
whitespace-only text), `computeBPE` does not fail; it returns a
trajectory consisting of exactly Step 0, with an empty sequence, a
vocabulary equal to the variant's special tokens, and no merges. -/
theorem c1_amended (text : String) (maxV : Nat) (model : TokenizerModel)
    (h : wordsOf model text = []) :
    (computeBPE text maxV model).steps =
      [⟨0, none, 0, model.specialTokens, [], [], []⟩] := by
  have ht : tokensOf model text = [] := by simp [tokensOf, h]
  simp only [computeBPE, ht]
  simp [seedVocab, dedup, dedupAux, bpeLoop_nil_tokens]

/-- C1 witness: the amended statement evaluated on the empty string. -/
theorem c1_witness :
    wordsOf customModel "" = [] ∧
      (computeBPE "" 17 customModel).steps =
        [⟨0, none, 0, ["</w>"], [], [], []⟩] :=
  ⟨rfl, c1_amended "" 17 customModel rfl⟩

/-! ### C2: tie-break among pairs at maximum frequency -/

/-- C2: on input `"a a bc bc"` (Custom variant) the pairs `(a, </w>)`
and `(b, c)` are both at the maximum frequency 2, the concatenation
`bc` is strictly shorter than `a</w>`, yet the code selects
`(a, </w>)` for the first merge — the globally-shortest-concatenation
tie-break demanded by the spec is not implemented (the scan only
replaces the current best when the candidate's key string, separator
included, is shorter). -/
theorem c2_failing_input :
    ((computeBPE "a a bc bc" 30 customModel).steps.getD 1 default).mostFrequentPair =
        some ("a", "</w>") ∧
      getCount (countPairs (tokensOf customModel "a a bc bc")) (pairKey "b" "c") = 2 ∧
      getCount (countPairs (tokensOf customModel "a a bc bc")) (pairKey "a" "</w>") = 2 ∧
      ("b" ++ "c").length < ("a" ++ "</w>").length :=
  ⟨rfl, rfl, rfl, by decide⟩

/-! ### C4: frequency floor -/

/-- C4 counterexample: Step 0 of every trajectory records
`frequency = 0 < 2`, so the claim as stated (no Step has frequency
below 2) fails at iteration 0. -/
theorem c4_counterexample :
    ((computeBPE "aa aa" 20 customModel).steps.getD 0 default).frequency < 2 := by
  decide

/-- C4 (amended): every Step of every trajectory either is Step 0
(iteration number 0, recorded with frequency 0) or records a frequency
of at least 2 — a pair occurring exactly once is never merged, the loop
halts instead of recording such a merge. -/
theorem c4_amended (text : String) (maxV : Nat) (model : TokenizerModel) :
    ∀ st ∈ (computeBPE text maxV model).steps,
      st.iteration = 0 ∨ 2 ≤ st.frequency := by
  intro st hst
  simp only [computeBPE] at hst
  rcases bpeLoop_mem_frequency model maxV _ _ _ _ _ _ _ hst with h | h
  · left
    have hs := List.mem_singleton.mp h
    subst hs
    rfl
  · exact Or.inr h

/-- C4 witness: the amended statement evaluated at Step 0 of a concrete
run. -/
theorem c4_witness :
    ((computeBPE "ab" 5 customModel).steps.getD 0 default).iteration = 0 ∨
      2 ≤ ((computeBPE "ab" 5 customModel).steps.getD 0 default).frequency :=
  c4_amended "ab" 5 customModel ((computeBPE "ab" 5 customModel).steps.getD 0 default)
    (by decide)

/-! ### C5: vocabulary duplicates -/

/-- C5: on input `"</w> </w>"` (Custom variant) the third merge
produces the symbol `</w>`, which is already in the vocabulary as a
special token; the code pushes it anyway, so the recorded vocabulary at
step 3 contains `</w>` twice — there is no de-duplication guard. -/
theorem c5_failing_input :
    (((computeBPE "</w> </w>" 10 customModel).steps.getD 3 default).vocabulary.count
      "</w>") = 2 := by
  decide

/-! ### C6: bound on the number of merges -/

/-- C6 counterexample: with `maxVocabSize = 1` and seed vocabulary of
size 4 the bound `min(maxVocabSize - initialVocabulary.length, 100)` is
the negative integer -3, while the number of merges performed is 0, so
the claimed inequality fails. -/
theorem c6_counterexample :
    ¬ (((computeBPE "abc" 1 customModel).steps.length : Int) - 1 ≤
        min ((1 : Int) - ((seedVocab customModel (tokensOf customModel "abc")).length : Int))
          100) := by
  decide

/-- C6 (amended): the number of merges performed (trajectory length
minus one) never exceeds `min(maxVocabSize - initialVocabulary.length,
100)` clamped below at zero (the integer `toNat`), which coincides with
the claimed bound whenever the budget is at least the seed size. -/
theorem c6_amended (text : String) (maxV : Nat) (model : TokenizerModel) :
    (computeBPE text maxV model).steps.length - 1 ≤
      (min ((maxV : Int) - ((seedVocab model (tokensOf model text)).length : Int))
        100).toNat := by
  have h := bpeLoop_length_le model maxV
      ((min ((maxV : Int) - ((seedVocab model (tokensOf model text)).length : Int))
        100).toNat)
      1 (tokensOf model text) (seedVocab model (tokensOf model text)) []
      [⟨0, none, 0, seedVocab model (tokensOf model text), tokensOf model text, [], []⟩]
  simp only [computeBPE]
  simp only [List.length_singleton] at h
  omega

/-! ### C7: budget not above the seed vocabulary size -/

/-- C7: for a non-empty input whose `maxVocabSize` is at most the seed
vocabulary size, the trajectory consists of exactly one Step
(iteration 0) and zero merges, and no error is raised (the function is
total). -/
theorem c7_confirmed (text : String) (maxV : Nat) (model : TokenizerModel)
    (_hne : wordsOf model text ≠ [])
    (h : maxV ≤ (seedVocab model (tokensOf model text)).length) :
    (computeBPE text maxV model).steps.length = 1 ∧
      ((computeBPE text maxV model).steps.getD 0 default).iteration = 0 ∧
      (computeBPE text maxV model).totalMerges = 0 := by
  have hfuel :
      (min ((maxV : Int) - ((seedVocab model (tokensOf model text)).length : Int))
        100).toNat = 0 := by
    omega
  refine ⟨?_, ?_, ?_⟩ <;> simp [computeBPE, hfuel, bpeLoop]

/-- C7 witness: `"ab"` with the Custom variant has seed vocabulary
`[a, b, </w>]` of size 3; budget 3 yields a single-step trajectory. -/
theorem c7_witness :
    (computeBPE "ab" 3 customModel).steps.length = 1 ∧
      ((computeBPE "ab" 3 customModel).steps.getD 0 default).iteration = 0 ∧
      (computeBPE "ab" 3 customModel).totalMerges = 0 :=
  c7_confirmed "ab" 3 customModel (by decide) (by decide)

/-! ### C8: SentencePiece-style variants and boundary markers -/

/-- C8 counterexample: for the LLaMA variant the whole input becomes a
single word after whitespace is replaced by `▁`, and that word is
tokenized by the default branch, which appends `</w>` — the step-0
sequence for `"a b"` ends with the boundary marker the claim says is
never appended. -/
theorem c8_counterexample :
    ((computeBPE "a b" 32000 llamaModel).steps.getD 0 default).mergedTokens =
      ["a", "▁", "b", "</w>"] := by
  decide

/-- C8 (amended): only the T5/SentencePiece variant leaves characters
unmarked (every initial symbol is a single character, whitespace having
been replaced by the visible separator `▁`); the LLaMA variant also
receives the `▁` replacement but its words fall into the default
branch, so each of its words ends with the `</w>` boundary symbol. -/
theorem c8_amended (text : String) :
    (∀ t ∈ tokensOf t5Model text, t.data.length = 1) ∧
      ∀ w ∈ wordsOf llamaModel text,
        (wordTokens llamaModel w).getLast? = some "</w>" := by
  constructor
  · intro t ht
    simp only [tokensOf, List.mem_flatMap] at ht
    obtain ⟨w, _, htw⟩ := ht
    rw [wordTokens, if_neg (by decide), if_pos (by decide)] at htw
    obtain ⟨c, _, rfl⟩ := List.mem_map.mp htw
    rfl
  · intro w _
    rw [wordTokens, if_neg (by decide), if_neg (by decide)]
    exact List.getLast?_concat _

/-- C8 witness: the amended statement evaluated on `"a b"`. -/
theorem c8_witness :
    ("a" : String).data.length = 1 ∧
      (wordTokens llamaModel "a▁b").getLast? = some "</w>" :=
  ⟨(c8_amended "a b").1 "a" (by decide), (c8_amended "a b").2 "a▁b" (by decide)⟩

/-! ### C9: determinism -/

/-- C9: `computeBPE` is a pure function of `(text, maxVocabSize,
variant)`: two calls with equal inputs produce equal trajectories in
every embedded field of every step; there is no hidden state. -/
theorem c9_confirmed (t1 t2 : String) (v1 v2 : Nat) (m1 m2 : TokenizerModel)
    (h1 : t1 = t2) (h2 : v1 = v2) (h3 : m1 = m2) :
    computeBPE t1 v1 m1 = computeBPE t2 v2 m2 := by
  subst h1
  subst h2
  subst h3
  rfl

/-- C9 witness: determinism instantiated at a concrete input. -/
theorem c9_witness :
    computeBPE "hi" 4 customModel = computeBPE "hi" 4 customModel :=
  c9_confirmed "hi" "hi" 4 4 customModel customModel rfl rfl rfl

/-! ### C3: every sequence symbol is (essentially) in the vocabulary -/

theorem mem_dedupAux (t : String) :
    ∀ l seen, t ∈ l → t ∉ seen → t ∈ dedupAux seen l := by
  intro l
  induction l with
  | nil =>
    intro seen h _
    exact absurd h (List.not_mem_nil t)
  | cons x xs ih =>
    intro seen hmem hns
    by_cases hx : x ∈ seen
    · simp only [dedupAux, if_pos hx]
      rcases List.mem_cons.mp hmem with rfl | hxs
      · exact absurd hx hns
      · exact ih seen hxs hns
    · simp only [dedupAux, if_neg hx]
      by_cases htx : t = x
      · subst htx
        exact List.mem_cons_self _ _
      · rcases List.mem_cons.mp hmem with rfl | hxs
        · exact absurd rfl htx
        · refine List.mem_cons_of_mem _ (ih (x :: seen) hxs ?_)
          intro hc
          rcases List.mem_cons.mp hc with h1 | h1
          · exact htx h1
          · exact hns h1

theorem seed_tokInv (model : TokenizerModel) (tokens : List String) :
    TokInv tokens (seedVocab model tokens) := by
  intro t ht
  by_cases hp : isPlainTok t = true
  · left
    exact List.mem_append_left _
      (mem_dedupAux t _ [] (List.mem_filter.mpr ⟨ht, hp⟩) (List.not_mem_nil t))
  · right
    by_cases ha : strContains t "</w>" = true
    · exact Or.inl ha
    · by_cases hb : strContains t "##" = true
      · exact Or.inr hb
      · refine absurd ?_ hp
        simp only [isPlainTok, Bool.and_eq_true, Bool.not_eq_true']
        exact ⟨Bool.not_eq_true _ ▸ ha, Bool.not_eq_true _ ▸ hb⟩

theorem mem_mergeScan (a b nt t : String) :
    ∀ l pend, t ∈ mergeScan a b nt pend l →
      t = nt ∨ t ∈ l ∨ pend = some t := by
  intro l
  induction l with
  | nil =>
    intro pend h
    cases pend with
    | none => simp [mergeScan] at h
    | some x =>
      simp only [mergeScan, List.mem_singleton] at h
      subst h
      exact Or.inr (Or.inr rfl)
  | cons y rest ih =>
    intro pend h
    cases pend with
    | none =>
      rcases ih (some y) (by simpa [mergeScan] using h) with h1 | h1 | h1
      · exact Or.inl h1
      · exact Or.inr (Or.inl (List.mem_cons_of_mem _ h1))
      · have hy : y = t := by injection h1
        exact Or.inr (Or.inl (hy ▸ List.mem_cons_self _ _))
    | some x =>
      by_cases hc : x = a ∧ y = b
      · simp only [mergeScan, if_pos hc] at h
        rcases List.mem_cons.mp h with rfl | h2
        · exact Or.inl rfl
        · rcases ih none h2 with h1 | h1 | h1
          · exact Or.inl h1
          · exact Or.inr (Or.inl (List.mem_cons_of_mem _ h1))
          · exact absurd h1 (by simp)
      · simp only [mergeScan, if_neg hc] at h
        rcases List.mem_cons.mp h with rfl | h2
        · exact Or.inr (Or.inr rfl)
        · rcases ih (some y) h2 with h1 | h1 | h1
          · exact Or.inl h1
          · exact Or.inr (Or.inl (List.mem_cons_of_mem _ h1))
          · have hy : y = t := by injection h1
            exact Or.inr (Or.inl (hy ▸ List.mem_cons_self _ _))

theorem mem_mergeTokens (a b nt t : String) (l : List String)
    (h : t ∈ mergeTokens a b nt l) : t = nt ∨ t ∈ l := by
  rcases mem_mergeScan a b nt t l none h with h1 | h1 | h1
  · exact Or.inl h1
  · exact Or.inr h1
  · exact absurd h1 (by simp)

theorem bpeLoop_tokInv (model : TokenizerModel) (maxV : Nat) :
    ∀ fuel iter tokens vocab rules steps,
      (∀ st ∈ steps, TokInv st.mergedTokens st.vocabulary) →
      TokInv tokens vocab →
      ∀ st ∈ bpeLoop model maxV fuel iter tokens vocab rules steps,
        TokInv st.mergedTokens st.vocabulary := by
  intro fuel
  induction fuel with
  | zero =>
    intro iter tokens vocab rules steps hsteps _ st hst
    exact hsteps st (by simpa [bpeLoop] using hst)
  | succ n ih =>
    intro iter tokens vocab rules steps hsteps hinv st hst
    simp only [bpeLoop] at hst
    split at hst
    · split at hst
      · exact hsteps st hst
      · split at hst
        · exact hsteps st hst
        · rename_i first second maxFreq heq
          split at hst
          · exact hsteps st hst
          · have hnewInv :
                TokInv
                  (mergeTokens first second (makeNewToken model first second) tokens)
                  (vocab ++ [makeNewToken model first second]) := by
              intro t ht
              rcases mem_mergeTokens _ _ _ t _ ht with rfl | htok
              · exact Or.inl (List.mem_append_right _ (List.mem_singleton.mpr rfl))
              · rcases hinv t htok with hv | hm
                · exact Or.inl (List.mem_append_left _ hv)
                · exact Or.inr hm
            refine ih _ _ _ _ _ ?_ hnewInv st hst
            intro st2 hst2
            rcases List.mem_append.mp hst2 with h1 | h1
            · exact hsteps st2 h1
            · have hs := List.mem_singleton.mp h1
              subst hs
              exact hnewInv
    · exact hsteps st hst

/-- C3 counterexample: for the BERT variant on input `"ab"`, the step-0
sequence contains the marked symbol `##b`, which is excluded from the
seed character vocabulary and absent from BERT's special tokens — so
the step-0 vocabulary does not contain it, contrary to the claim that
the invariant covers WordPiece-style `##`-prefixed symbols. -/
theorem c3_counterexample :
    "##b" ∈ ((computeBPE "ab" 30522 bertModel).steps.getD 0 default).mergedTokens ∧
      "##b" ∉ ((computeBPE "ab" 30522 bertModel).steps.getD 0 default).vocabulary := by
  decide

/-- C3 (amended): at every step of every trajectory, every symbol of the
sequence snapshot either belongs to the vocabulary snapshot or is an
unmerged preprocessor symbol whose text contains `</w>` or `##` (such
markers enter the step-0 vocabulary only through `specialTokens`, as
happens for the Custom variant's `</w>`). -/
theorem c3_amended (text : String) (maxV : Nat) (model : TokenizerModel) :
    ∀ st ∈ (computeBPE text maxV model).steps, ∀ t ∈ st.mergedTokens,
      t ∈ st.vocabulary ∨ strContains t "</w>" = true ∨ strContains t "##" = true := by
  intro st hst
  simp only [computeBPE] at hst
  refine bpeLoop_tokInv model maxV _ _ _ _ _ _ ?_ (seed_tokInv model (tokensOf model text))
    st hst
  intro st2 hst2
  have hs := List.mem_singleton.mp hst2
  subst hs
  exact seed_tokInv model (tokensOf model text)

/-- C3 witness: the amended statement evaluated at Step 0 of a concrete
run, at the symbol `a`. -/
theorem c3_witness :
    "a" ∈ ((computeBPE "ab" 6 customModel).steps.getD 0 default).vocabulary ∨
      strContains "a" "</w>" = true ∨ strContains "a" "##" = true :=
  c3_amended "ab" 6 customModel ((computeBPE "ab" 6 customModel).steps.getD 0 default)
    (by decide) "a" (by decide)

/-! ### C10: counting machinery for the recorded frequency -/

theorem getCount_bump_self (k : String) :
    ∀ m, getCount (bump k m) k = getCount m k + 1 := by
  intro m
  induction m with
  | nil => simp [bump, getCount]
  | cons e rest ih =>
    obtain ⟨k0, n⟩ := e
    by_cases h : k0 = k
    · subst h
      simp [bump, getCount]
    · simp [bump, getCount, h, ih]

theorem getCount_bump_ne (k0 k : String) (h : k0 ≠ k) :
    ∀ m, getCount (bump k0 m) k = getCount m k := by
  intro m
  induction m with
  | nil => simp [bump, getCount, h]
  | cons e rest ih =>
    obtain ⟨k1, n⟩ := e
    by_cases h1 : k1 = k0
    · subst h1
      simp [bump, getCount, h]
    · simp [bump, getCount, h1, ih]

theorem getCount_foldl_bump (k : String) :
    ∀ (ks : List String) (m : List (String × Nat)),
      getCount (ks.foldl (fun m k2 => bump k2 m) m) k =
        getCount m k + keyCount k ks := by
  intro ks
  induction ks with
  | nil => intro m; simp [keyCount]
  | cons k0 ks ih =>
    intro m
    simp only [List.foldl_cons, keyCount]
    rw [ih (bump k0 m)]
    by_cases h : k0 = k
    · subst h
      rw [getCount_bump_self, if_pos rfl]
      omega
    · rw [getCount_bump_ne k0 k h, if_neg h]
      omega

theorem mem_bump_key (k : String) :
    ∀ (m : List (String × Nat)) p, p ∈ bump k m →
      p.1 = k ∨ p.1 ∈ m.map Prod.fst := by
  intro m
  induction m with
  | nil =>
    intro p hp
    simp only [bump, List.mem_singleton] at hp
    subst hp
    exact Or.inl rfl
  | cons e rest ih =>
    intro p hp
    obtain ⟨k0, n⟩ := e
    by_cases h : k0 = k
    · subst h
      simp only [bump, if_true, eq_self_iff_true, if_pos, List.mem_cons] at hp
      rcases hp with heq | hp
      · subst heq
        exact Or.inl rfl
      · exact Or.inr (List.mem_cons_of_mem _ (List.mem_map.mpr ⟨p, hp, rfl⟩))
    · simp only [bump, if_neg h, List.mem_cons] at hp
      rcases hp with heq | hp
      · subst heq
        exact Or.inr (List.mem_cons_self _ _)
      · rcases ih p hp with h1 | h1
        · exact Or.inl h1
        · exact Or.inr (List.mem_cons_of_mem _ h1)

theorem bump_keys_nodup (k : String) :
    ∀ (m : List (String × Nat)), (m.map Prod.fst).Nodup →
      ((bump k m).map Prod.fst).Nodup := by
  intro m
  induction m with
  | nil =>
    intro _
    simp [bump]
  | cons e rest ih =>
    intro hnd
    obtain ⟨k0, n⟩ := e
    simp only [List.map_cons, List.nodup_cons] at hnd
    by_cases h : k0 = k
    · subst h
      simpa [bump, List.nodup_cons] using hnd
    · simp only [bump, if_neg h, List.map_cons, List.nodup_cons]
      refine ⟨?_, ih hnd.2⟩
      intro hc
      rcases List.mem_map.mp hc with ⟨p, hp, hpk⟩
      rcases mem_bump_key k rest p hp with h1 | h1
      · rw [h1] at hpk
        exact h hpk.symm
      · rw [← hpk] at hnd
        exact hnd.1 h1

theorem foldl_bump_keys_nodup :
    ∀ (ks : List String) (m : List (String × Nat)), (m.map Prod.fst).Nodup →
      ((ks.foldl (fun m k2 => bump k2 m) m).map Prod.fst).Nodup := by
  intro ks
  induction ks with
  | nil => intro m h; simpa using h
  | cons k0 ks ih =>
    intro m h
    exact ih (bump k0 m) (bump_keys_nodup k0 m h)

theorem countPairs_keys_nodup (tokens : List String) :
    ((countPairs tokens).map Prod.fst).Nodup :=
  foldl_bump_keys_nodup (adjKeys tokens) [] (by simp)

theorem getCount_eq_of_mem :
    ∀ (m : List (String × Nat)) k n, (m.map Prod.fst).Nodup →
      (k, n) ∈ m → getCount m k = n := by
  intro m
  induction m with
  | nil =>
    intro k n _ h
    exact absurd h (List.not_mem_nil _)
  | cons e rest ih =>
    intro k n hnd hmem
    obtain ⟨k0, n0⟩ := e
    simp only [List.map_cons, List.nodup_cons] at hnd
    rcases List.mem_cons.mp hmem with heq | hmem2
    · rw [Prod.mk.injEq] at heq
      obtain ⟨rfl, rfl⟩ := heq
      simp [getCount]
    · by_cases h : k0 = k
      · subst h
        exact absurd (List.mem_map.mpr ⟨(k0, n), hmem2, rfl⟩) hnd.1
      · simp only [getCount, if_neg h]
        exact ih k n hnd.2 hmem2

theorem mem_countPairs_count (tokens : List String) (k : String) (n : Nat)
    (h : (k, n) ∈ countPairs tokens) : n = keyCount k (adjKeys tokens) := by
  have h1 := getCount_eq_of_mem (countPairs tokens) k n (countPairs_keys_nodup tokens) h
  have h2 := getCount_foldl_bump k (adjKeys tokens) []
  simp only [countPairs] at h1
  rw [h1] at h2
  simpa [getCount] using h2

theorem mem_foldl_bump_key :
    ∀ (ks : List String) (m : List (String × Nat)) p,
      p ∈ ks.foldl (fun m k2 => bump k2 m) m →
      p.1 ∈ m.map Prod.fst ∨ p.1 ∈ ks := by
  intro ks
  induction ks with
  | nil =>
    intro m p hp
    exact Or.inl (List.mem_map.mpr ⟨p, by simpa using hp, rfl⟩)
  | cons k0 ks ih =>
    intro m p hp
    simp only [List.foldl_cons] at hp
    rcases ih (bump k0 m) p hp with h1 | h1
    · rcases List.mem_map.mp h1 with ⟨q, hq, hqk⟩
      rcases mem_bump_key k0 m q hq with h2 | h2
      · rw [← hqk, h2]
        exact Or.inr (List.mem_cons_self _ _)
      · rw [← hqk]
        exact Or.inl h2
    · exact Or.inr (List.mem_cons_of_mem _ h1)

theorem mem_countPairs_key (tokens : List String) (k : String) (n : Nat)
    (h : (k, n) ∈ countPairs tokens) : k ∈ adjKeys tokens := by
  rcases mem_foldl_bump_key (adjKeys tokens) [] (k, n) h with h1 | h1
  · simp at h1
  · exact h1

theorem mem_adjKeys :
    ∀ (l : List String) k, k ∈ adjKeys l →
      ∃ x y, x ∈ l ∧ y ∈ l ∧ k = pairKey x y := by
  intro l
  induction l with
  | nil =>
    intro k hk
    simp [adjKeys] at hk
  | cons x rest ih =>
    intro k hk
    cases rest with
    | nil => simp [adjKeys] at hk
    | cons y rest2 =>
      simp only [adjKeys] at hk
      rcases List.mem_cons.mp hk with rfl | h2
      · exact ⟨x, y, List.mem_cons_self _ _,
          List.mem_cons_of_mem _ (List.mem_cons_self _ _), rfl⟩
      · rcases ih k h2 with ⟨x2, y2, hx2, hy2, hk2⟩
        exact ⟨x2, y2, List.mem_cons_of_mem _ hx2, List.mem_cons_of_mem _ hy2, hk2⟩

theorem splitBarsSt_no_bar :
    ∀ (l : List Char) (acc : List Char), '|' ∉ l →
      splitBarsSt 0 acc l = [acc.reverse ++ l] := by
  intro l
  induction l with
  | nil =>
    intro acc _
    simp [splitBarsSt]
  | cons c rest ih =>
    intro acc h
    have hc : ¬(c = '|') := by
      intro hc
      exact h (hc ▸ List.mem_cons_self _ _)
    have hr : '|' ∉ rest := fun hr => h (List.mem_cons_of_mem _ hr)
    simp only [splitBarsSt, if_neg hc, List.replicate, List.nil_append]
    rw [ih (c :: acc) hr]
    simp

theorem splitBarsSt_key :
    ∀ (la : List Char) (acc lb : List Char), '|' ∉ la → '|' ∉ lb →
      splitBarsSt 0 acc (la ++ '|' :: '|' :: '|' :: lb) =
        [acc.reverse ++ la, lb] := by
  intro la
  induction la with
  | nil =>
    intro acc lb _ hlb
    simp only [List.nil_append, splitBarsSt, if_pos rfl]
    norm_num
    rw [splitBarsSt_no_bar lb [] hlb]
    simp
  | cons c rest ih =>
    intro acc lb hla hlb
    have hc : ¬(c = '|') := by
      intro hc
      exact hla (hc ▸ List.mem_cons_self _ _)
    have hr : '|' ∉ rest := fun hr => hla (List.mem_cons_of_mem _ hr)
    simp only [List.cons_append, splitBarsSt, if_neg hc, List.replicate, List.nil_append,
      List.append_eq]
    rw [ih (c :: acc) lb hr hlb]
    simp

theorem keyParts_pairKey (a b : String) (ha : '|' ∉ a.data) (hb : '|' ∉ b.data) :
    keyParts (pairKey a b) = [a, b] := by
  obtain ⟨la⟩ := a
  obtain ⟨lb⟩ := b
  simp only [keyParts, pairKey, String.data_append, List.cons_append, List.nil_append]
  rw [List.append_assoc,
    show ['|', '|', '|'] ++ lb = '|' :: '|' :: '|' :: lb from rfl,
    splitBarsSt_key la [] lb ha hb]
  simp

theorem keyFst_pairKey (a b : String) (ha : '|' ∉ a.data) (hb : '|' ∉ b.data) :
    keyFst (pairKey a b) = a := by
  simp [keyFst, keyParts_pairKey a b ha hb]

theorem keySnd_pairKey (a b : String) (ha : '|' ∉ a.data) (hb : '|' ∉ b.data) :
    keySnd (pairKey a b) = b := by
  simp [keySnd, keyParts_pairKey a b ha hb]

theorem keyCount_adjKeys_eq_adjCount (a b : String)
    (ha : '|' ∉ a.data) (hb : '|' ∉ b.data) :
    ∀ (l : List String), (∀ t ∈ l, '|' ∉ t.data) →
      keyCount (pairKey a b) (adjKeys l) = adjCount a b l := by
  intro l
  induction l with
  | nil =>
    intro _
    simp [adjKeys, adjCount, keyCount]
  | cons x rest ih =>
    intro hl
    cases rest with
    | nil => simp [adjKeys, adjCount, keyCount]
    | cons y rest2 =>
      have hx : '|' ∉ x.data := hl x (List.mem_cons_self _ _)
      have hy : '|' ∉ y.data :=
        hl y (List.mem_cons_of_mem _ (List.mem_cons_self _ _))
      have hrest : ∀ t ∈ y :: rest2, '|' ∉ t.data := fun t ht =>
        hl t (List.mem_cons_of_mem _ ht)
      rw [show adjKeys (x :: y :: rest2) = pairKey x y :: adjKeys (y :: rest2) from rfl,
        show adjCount a b (x :: y :: rest2) =
          (if x = a ∧ y = b then 1 else 0) + adjCount a b (y :: rest2) from rfl]
      simp only [keyCount]
      rw [ih hrest]
      congr 1
      by_cases hxy : x = a ∧ y = b
      · obtain ⟨rfl, rfl⟩ := hxy
        simp
      · rw [if_neg hxy, if_neg ?_]
        intro hk
        have h1 : keyParts (pairKey x y) = [x, y] := keyParts_pairKey x y hx hy
        have h2 : keyParts (pairKey a b) = [a, b] := keyParts_pairKey a b ha hb
        rw [hk, h2] at h1
        injection h1 with e1 e2
        injection e2 with e2 _
        exact hxy ⟨e1.symm, e2.symm⟩

theorem selectPair_foldl_spec (L : List (String × Nat)) :
    ∀ (l : List (String × Nat)) (acc : Option (String × String) × Nat),
      (∀ e ∈ l, e ∈ L) →
      (acc.1 = none ∨ ∃ k, (k, acc.2) ∈ L ∧ acc.1 = some (keyFst k, keySnd k)) →
      ((l.foldl selStep acc).1 = none ∨
        ∃ k, (k, (l.foldl selStep acc).2) ∈ L ∧
          (l.foldl selStep acc).1 = some (keyFst k, keySnd k)) := by
  intro l
  induction l with
  | nil =>
    intro acc _ hacc
    simpa using hacc
  | cons e l2 ih =>
    intro acc hsub hacc
    simp only [List.foldl_cons]
    refine ih (selStep acc e) (fun e2 he2 => hsub e2 (List.mem_cons_of_mem _ he2)) ?_
    by_cases hcond : e.2 > acc.2 ∨
        (e.2 = acc.2 ∧
          e.1.length <
            (match acc.1 with
             | some p => p.1 ++ p.2
             | none => "").length)
    · right
      refine ⟨e.1, ?_, ?_⟩
      · simp only [selStep, if_pos hcond]
        have he : (e.1, e.2) = e := rfl
        rw [he]
        exact hsub e (List.mem_cons_self _ _)
      · simp [selStep, if_pos hcond]
    · simp only [selStep, if_neg hcond]
      exact hacc

theorem selectPair_spec (counts : List (String × Nat)) (f s : String) (m : Nat)
    (h : selectPair counts = (some (f, s), m)) :
    ∃ k, (k, m) ∈ counts ∧ f = keyFst k ∧ s = keySnd k := by
  have hspec := selectPair_foldl_spec counts counts (none, 0) (fun e he => he)
    (Or.inl rfl)
  rcases hspec with h1 | ⟨k, hk, heq⟩
  · rw [show counts.foldl selStep (none, 0) = selectPair counts from rfl, h] at h1
    exact absurd h1 (by simp)
  · rw [show counts.foldl selStep (none, 0) = selectPair counts from rfl, h] at hk heq
    simp only at hk heq
    injection heq with heq
    rw [Prod.mk.injEq] at heq
    exact ⟨k, hk, heq.1, heq.2⟩

theorem selectPair_freq (tokens : List String) (hbf : ∀ t ∈ tokens, '|' ∉ t.data)
    (f s : String) (m : Nat)
    (hsel : selectPair (countPairs tokens) = (some (f, s), m)) :
    m = adjCount f s tokens := by
  rcases selectPair_spec (countPairs tokens) f s m hsel with ⟨k, hk, hf, hs⟩
  have hkadj := mem_countPairs_key tokens k m hk
  rcases mem_adjKeys tokens k hkadj with ⟨x, y, hx, hy, rfl⟩
  have hxb : '|' ∉ x.data := hbf x hx
  have hyb : '|' ∉ y.data := hbf y hy
  rw [keyFst_pairKey x y hxb hyb] at hf
  rw [keySnd_pairKey x y hxb hyb] at hs
  subst hf
  subst hs
  have hcount := mem_countPairs_count tokens (pairKey f s) m hk
  rw [hcount]
  exact keyCount_adjKeys_eq_adjCount f s hxb hyb tokens hbf

theorem bpeLoop_chain (model : TokenizerModel) (maxV : Nat) :
    ∀ fuel iter tokens vocab rules steps,
      (∀ st, steps.getLast? = some st → st.mergedTokens = tokens) →
      List.Chain' stepRel steps →
      List.Chain' stepRel (bpeLoop model maxV fuel iter tokens vocab rules steps) := by
  intro fuel
  induction fuel with
  | zero =>
    intro iter tokens vocab rules steps _ hchain
    simpa [bpeLoop] using hchain
  | succ n ih =>
    intro iter tokens vocab rules steps hlast hchain
    simp only [bpeLoop]
    split
    · split
      · exact hchain
      · split
        · exact hchain
        · rename_i first second maxFreq heq
          split
          · exact hchain
          · rename_i hge
            refine ih _ _ _ _ _ ?_ ?_
            · intro st hst
              rw [List.getLast?_concat] at hst
              injection hst with hst
              subst hst
              rfl
            · rw [List.chain'_append]
              refine ⟨hchain, List.chain'_singleton _, ?_⟩
              intro x hx y hy
              simp only [List.head?_cons, Option.mem_def, Option.some.injEq] at hy
              subst hy
              intro hbf a b hpair
              simp only [Option.some.injEq] at hpair
              rw [Prod.mk.injEq] at hpair
              obtain ⟨rfl, rfl⟩ := hpair
              have hxm : x.mergedTokens = tokens := hlast x (Option.mem_def.mp hx)
              rw [hxm] at hbf ⊢
              exact selectPair_freq tokens hbf first second maxFreq heq
    · exact hchain

/-! ### C10: the recorded frequency and overlapping adjacencies -/

/-- C10 counterexample: on input `"|| ||"` (Custom variant) the most
frequent pair key is `"|||||"`, which the code splits back as the pair
`("", "||")`; step 1 records frequency 2 for that pair although the
pair `("", "||")` has zero adjacent occurrences in the step-0 sequence
— the recorded frequency is the count of the joined key, not of the
chosen pair, when symbols contain `|`. -/
theorem c10_counterexample :
    ((computeBPE "|| ||" 3 customModel).steps.getD 1 default).mostFrequentPair =
        some ("", "||") ∧
      ((computeBPE "|| ||" 3 customModel).steps.getD 1 default).frequency = 2 ∧
      adjCount "" "||"
        (((computeBPE "|| ||" 3 customModel).steps.getD 0 default).mergedTokens) = 0 :=
  ⟨rfl, rfl, rfl⟩

/-- C10 (amended): between any two consecutive steps of any trajectory,
provided no symbol of the earlier snapshot contains the character `|`
(so the `"|||"`-joined map keys are collision-free), the later step's
recorded frequency equals the overlap-inclusive count of adjacent
occurrences of its chosen pair in the earlier snapshot; this count can
strictly exceed the number of non-overlapping replacements performed,
as on input `"aaa"`: merging `(a, a)` in `a,a,a,</w>` records
frequency 2 while the sequence shrinks by exactly one symbol. -/
theorem c10_amended :
    (∀ (text : String) (maxV : Nat) (model : TokenizerModel),
        List.Chain' stepRel (computeBPE text maxV model).steps) ∧
      ((computeBPE "aaa" 20 customModel).steps.getD 1 default).mostFrequentPair =
          some ("a", "a") ∧
      ((computeBPE "aaa" 20 customModel).steps.getD 1 default).frequency = 2 ∧
      ((computeBPE "aaa" 20 customModel).steps.getD 0 default).mergedTokens.length = 4 ∧
      ((computeBPE "aaa" 20 customModel).steps.getD 1 default).mergedTokens.length = 3 := by
  refine ⟨?_, rfl, rfl, rfl, rfl⟩
  intro text maxV model
  simp only [computeBPE]
  refine bpeLoop_chain model maxV _ _ _ _ _ _ ?_ (List.chain'_singleton _)
  intro st hst
  simp only [List.getLast?_singleton, Option.some.injEq] at hst
  subst hst
  rfl
